import Mathlib

/-!
Shallow embedding of `src/Backend/simple_blockchain.py` (class `Blockchain`).

Modelling conventions:
* Python dict-shaped blocks become the structure `Block`.  Every field the
  code accesses unconditionally (`index`, `timestamp`, `transactions`,
  `proof`) is a plain field; `previous_hash` is `Option String` because
  `valid_chain` tests `'previous_hash' in last_block` before reading it on
  the walk's left element, while reading it on the right element
  (`block['previous_hash']`) would raise `KeyError` when absent — that
  fallible read is modelled by an `Option`-valued validator.
* `hashlib.sha256(...).hexdigest()` is the one external primitive; it is
  abstracted as a parameter `sha : String → String` applied to the canonical
  JSON encoding that `Blockchain.hash` builds (`json.dumps(block,
  sort_keys=True)` is modelled by rendering the insertion-ordered field list
  and sorting it by key before serialisation).
* Machine floats (`time.time()`) are irrelevant to the verified claims; the
  timestamp is threaded in as an explicit `Nat` argument.
* The unbounded `while` loop of `proof_of_work` is given explicit fuel and
  returns `Option Nat` (`none` = the loop has not terminated within fuel).
* Network effects in `resolve_conflicts` are abstracted by passing the list
  of per-peer fetch outcomes (`PeerResponse`) in iteration order; an
  uncaught `IndexError`/`KeyError` escaping the scan is modelled as `none`.
-/

structure Transaction where
  sender : String
  recipient : String
  amount : Int
deriving DecidableEq, Repr

structure Block where
  index : Nat
  timestamp : Nat
  transactions : List Transaction
  proof : Int
  previous_hash : Option String
deriving DecidableEq, Repr

structure Blockchain where
  chain : List Block
  current_transactions : List Transaction
deriving DecidableEq, Repr

/-- `DIFFICULTY = 4` from the configuration section. -/
def DIFFICULTY : Nat := 4

/-- The string `'0' * d`. -/
def target_of (d : Nat) : String :=
  String.mk (List.replicate d '0')

/-- JSON rendering of a string value (escaping is not modelled; the verified
claims never hash strings containing quotes). -/
def jstr (s : String) : String := "\"" ++ s ++ "\""

/-- Serialise an ordered field list the way `json.dumps` renders a dict. -/
def encodeFields (fields : List (String × String)) : String :=
  "\x7b" ++ String.intercalate ", " (fields.map fun kv => jstr kv.1 ++ ": " ++ kv.2) ++ "\x7d"

/-- Key order used by `json.dumps(…, sort_keys=True)`. -/
def keyLe (a b : String × String) : Bool := decide (a.1 ≤ b.1)

/-- `sort_keys=True`: sort the field list by field name. -/
def sortFields (fields : List (String × String)) : List (String × String) :=
  fields.mergeSort keyLe

/-- `sha256(json.dumps(dict, sort_keys=True).encode()).hexdigest()` for a
dict presented as its insertion-ordered field list. -/
def hashDict (sha : String → String) (fields : List (String × String)) : String :=
  sha (encodeFields (sortFields fields))

/-- Field list of a transaction dict, in the insertion order used by
`new_transaction`. -/
def tx_fields (t : Transaction) : List (String × String) :=
  [("sender", jstr t.sender), ("recipient", jstr t.recipient), ("amount", toString t.amount)]

/-- JSON rendering of one transaction (keys sorted, as `json.dumps` does for
nested dicts). -/
def encodeTx (t : Transaction) : String :=
  encodeFields (sortFields (tx_fields t))

/-- Field list of a block dict, in the insertion order used by `new_block`;
an absent `previous_hash` key is simply not in the list. -/
def block_fields (b : Block) : List (String × String) :=
  [("index", toString b.index),
   ("timestamp", toString b.timestamp),
   ("transactions", "[" ++ String.intercalate ", " (b.transactions.map encodeTx) ++ "]"),
   ("proof", toString b.proof)] ++
  (match b.previous_hash with
   | some h => [("previous_hash", jstr h)]
   | none => [])

/-- `Blockchain.hash`: SHA-256 of the block's key-sorted JSON encoding. -/
def Blockchain.hash (sha : String → String) (block : Block) : String :=
  hashDict sha (block_fields block)

/-- `Blockchain.valid_proof`: does `sha256(f'{last_proof}{proof}{last_hash}')`
start with `target`?  (`guess_hash[:len(target)] == target`). -/
def Blockchain.valid_proof (sha : String → String) (last_proof proof : Int)
    (last_hash : String) (target : String) : Bool :=
  (sha (toString last_proof ++ toString proof ++ last_hash)).take target.length == target

/-- The `while not valid_proof(...): proof += 1` loop of `proof_of_work`,
with explicit fuel; `p` is the current candidate. -/
def pow_from (sha : String → String) (last_proof : Int) (last_hash target : String) :
    Nat → Nat → Option Nat
  | _, 0 => none
  | p, fuel + 1 =>
    if Blockchain.valid_proof sha last_proof p last_hash target then some p
    else pow_from sha last_proof last_hash target (p + 1) fuel

/-- `Blockchain.proof_of_work`: search upward from 0 with
`target = '0' * DIFFICULTY`. -/
def Blockchain.proof_of_work (sha : String → String) (last_proof : Int)
    (last_hash : String) (fuel : Nat) : Option Nat :=
  pow_from sha last_proof last_hash (target_of DIFFICULTY) 0 fuel

/-- Reference hash used by `valid_chain` for the proof check:
`last_block['previous_hash'] if 'previous_hash' in last_block else
self.hash(last_block)`. -/
def refHash (sha : String → String) (b : Block) : String :=
  match b.previous_hash with
  | some s => s
  | none => Blockchain.hash sha b

/-- The `while current_index < len(chain)` walk of `valid_chain`, carrying
`last_block`; `none` models the `KeyError` raised when the right-hand block
has no `previous_hash` key. -/
def valid_chain_loop (sha : String → String) : Block → List Block → Option Bool
  | _, [] => some true
  | last_block, block :: rest =>
    match block.previous_hash with
    | none => none
    | some ph =>
      if ph ≠ Blockchain.hash sha last_block then some false
      else if Blockchain.valid_proof sha last_block.proof block.proof
          (refHash sha last_block) (target_of DIFFICULTY) then
        valid_chain_loop sha block rest
      else some false

/-- `Blockchain.valid_chain`; `none` on the empty chain models the
`IndexError` of `chain[0]`. -/
def Blockchain.valid_chain (sha : String → String) : List Block → Option Bool
  | [] => none
  | b :: rest => valid_chain_loop sha b rest

/-- Does `p` hold of every adjacent pair of `l`? -/
def adjPairsAll {α : Type} (p : α → α → Bool) (l : List α) : Bool :=
  (l.zip l.tail).all fun pc => p pc.1 pc.2

/-- Spec-side restatement of the validator (for claim C2): every adjacent
pair passes the linkage check and the proof-of-work check. -/
def valid_chain_spec (sha : String → String) (l : List Block) : Bool :=
  adjPairsAll
    (fun a b =>
      (b.previous_hash == some (Blockchain.hash sha a)) &&
        Blockchain.valid_proof sha a.proof b.proof (refHash sha a) (target_of DIFFICULTY))
    l

/-- Outcome of fetching one peer's `/chain` endpoint: `error` covers both a
raised `requests.RequestException` and a non-200 status (both are skipped);
`ok` carries the reported `length` field and the fetched chain. -/
inductive PeerResponse where
  | error
  | ok (length : Nat) (chain : List Block)
deriving DecidableEq, Repr

/-- The peer scan of `resolve_conflicts`, carrying `max_length` and
`new_chain`; `none` models an uncaught exception from `valid_chain`. -/
def resolve_scan (sha : String → String) :
    Nat → Option (List Block) → List PeerResponse → Option (Nat × Option (List Block))
  | maxLen, best, [] => some (maxLen, best)
  | maxLen, best, .error :: rs => resolve_scan sha maxLen best rs
  | maxLen, best, .ok len chain :: rs =>
    if maxLen < len then
      match Blockchain.valid_chain sha chain with
      | none => none
      | some true => resolve_scan sha len (some chain) rs
      | some false => resolve_scan sha maxLen best rs
    else resolve_scan sha maxLen best rs

/-- `Blockchain.resolve_conflicts`: scan all peers, then `if new_chain:`
(Python truthiness: `None` and the empty list are both falsy). -/
def Blockchain.resolve_conflicts (sha : String → String) (st : Blockchain)
    (responses : List PeerResponse) : Option (Bool × Blockchain) :=
  (resolve_scan sha st.chain.length none responses).map fun res =>
    match res.2 with
    | some c => if c.isEmpty then (false, st) else (true, { st with chain := c })
    | none => (false, st)

/-- Claim-side helper (C1): the chain of the first scanned `ok` response
whose reported length exceeds `localLen`. -/
def first_longer (localLen : Nat) : List PeerResponse → Option (List Block)
  | [] => none
  | .error :: rs => first_longer localLen rs
  | .ok len c :: rs => if localLen < len then some c else first_longer localLen rs

/-- `self.hash(self.chain[-1])`; the empty-chain branch is unreachable in the
source (Python would raise `IndexError`, but the one call on an empty chain —
the genesis call — short-circuits on its truthy `previous_hash="1"`). -/
def lastHashOr (sha : String → String) (chain : List Block) : String :=
  match chain.getLast? with
  | some b => Blockchain.hash sha b
  | none => ""

/-- `Blockchain.new_block`: build the block dict, reset the pool, append. The
`previous_hash or self.hash(self.chain[-1])` default follows Python string
truthiness (`None` and `""` both fall back). -/
def Blockchain.new_block (sha : String → String) (timestamp : Nat) (st : Blockchain)
    (proof : Int) (previous_hash : Option String) : Block × Blockchain :=
  let ph : String :=
    match previous_hash with
    | some s => if s = "" then lastHashOr sha st.chain else s
    | none => lastHashOr sha st.chain
  let block : Block :=
    { index := st.chain.length + 1
      timestamp := timestamp
      transactions := st.current_transactions
      proof := proof
      previous_hash := some ph }
  (block, { chain := st.chain ++ [block], current_transactions := [] })

/-- `Blockchain.__init__`: empty chain and pool, then the genesis call
`new_block(proof=100, previous_hash="1")`. -/
def Blockchain.init (sha : String → String) (ts0 : Nat) : Blockchain :=
  (Blockchain.new_block sha ts0 { chain := [], current_transactions := [] } 100 (some "1")).2

/-- `Blockchain.new_transaction`: append to the pool, return
`last_block['index'] + 1` (0 stands for the unreachable empty-chain read). -/
def Blockchain.new_transaction (st : Blockchain) (sender recipient : String)
    (amount : Int) : Nat × Blockchain :=
  ((match st.chain.getLast? with
    | some b => b.index + 1
    | none => 0),
   { st with current_transactions := st.current_transactions ++ [⟨sender, recipient, amount⟩] })

/-- One externally triggered mutation of the shared `Blockchain` instance. -/
inductive Op where
  | mine (timestamp : Nat) (proof : Int) (previous_hash : Option String)
  | tx (sender recipient : String) (amount : Int)
  | resolve (responses : List PeerResponse)
deriving DecidableEq, Repr

/-- Apply one operation.  A `resolve` whose scan raises leaves the state
unchanged: the source mutates `self.chain` only after the scan finishes. -/
def applyOp (sha : String → String) (st : Blockchain) : Op → Blockchain
  | .mine ts proof ph => (Blockchain.new_block sha ts st proof ph).2
  | .tx s r a => (Blockchain.new_transaction st s r a).2
  | .resolve rs =>
    match Blockchain.resolve_conflicts sha st rs with
    | some (_, st') => st'
    | none => st

/-- Run a sequence of operations. -/
def run (sha : String → String) (ops : List Op) (st : Blockchain) : Blockchain :=
  ops.foldl (applyOp sha) st

/-- Claim-side (C4, as stated): all transactions passed to
`new_transaction`, in submission order. -/
def recordedTxs : List Op → List Transaction
  | [] => []
  | .tx s r a :: ops => ⟨s, r, a⟩ :: recordedTxs ops
  | _ :: ops => recordedTxs ops

/-- Claim-side (C4, as stated): transactions embedded in the current chain. -/
def embeddedTxs (st : Blockchain) : List Transaction :=
  st.chain.flatMap (·.transactions)

/-- Claim-side (C4, amended): effect of one operation on the pool of
transactions recorded since the most recent `new_block` call. -/
def pool_step (acc : List Transaction) : Op → List Transaction
  | .tx s r a => acc ++ [⟨s, r, a⟩]
  | .mine _ _ _ => []
  | .resolve _ => acc

/-- Claim-side (C4, amended): the pool the state should carry — exactly the
transactions recorded since the most recent `new_block` call. -/
def expected_pool (ops : List Op) : List Transaction :=
  ops.foldl pool_step []

/-- Claim-side (C3, amended): the run consists solely of `mine` operations,
each supplying either a falsy previous-hash argument or the fingerprint of
the chain's current last block. -/
def goodMine (sha : String → String) : Blockchain → List Op → Bool
  | _, [] => true
  | st, .mine ts proof ph :: ops =>
    (ph == none || ph == some "" || ph == some (lastHashOr sha st.chain)) &&
      goodMine sha (applyOp sha st (.mine ts proof ph)) ops
  | _, _ :: _ => false

/-- Linking check of C3: every non-first block records the fingerprint of
its immediate predecessor. -/
def chain_linked (sha : String → String) (l : List Block) : Bool :=
  adjPairsAll (fun a b => b.previous_hash == some (Blockchain.hash sha a)) l

/-- Stand-in digest primitive for concrete witnesses: every input hashes to
`"0000"`, so every proof is valid at difficulty 4 and every block's
fingerprint is `"0000"`. -/
def shaZero : String → String := fun _ => "0000"

/-- Stand-in digest primitive for concrete witnesses: only the guess
`"02abc"` (last_proof 0, proof 2, last_hash "abc") meets difficulty 1. -/
def shaStep : String → String := fun s => if s == "02abc" then "0" else "z"

/-- Claim-side (C6, amended): a scanned response qualifies for adoption when
its reported length exceeds the local length and its chain validates. -/
def qualifies (sha : String → String) (localLen : Nat) : PeerResponse → Bool
  | .error => false
  | .ok len c => decide (localLen < len) && (Blockchain.valid_chain sha c == some true)

/-- Claim-side (C1, amended): every response whose reported length exceeds
the local length reports exactly `L` and carries a valid chain. -/
def tie_ok (sha : String → String) (localLen L : Nat) : PeerResponse → Bool
  | .error => true
  | .ok len c =>
    !(decide (localLen < len)) ||
      (decide (len = L) && (Blockchain.valid_chain sha c == some true))

/-- Claim-side (C1): the response reports a length no greater than the local
length. -/
def not_longer (localLen : Nat) : PeerResponse → Bool
  | .error => true
  | .ok len _ => decide (len ≤ localLen)

/-- Concrete genesis block produced by `Blockchain.init` at timestamp 0. -/
def gBlock : Block :=
  { index := 1, timestamp := 0, transactions := [], proof := 100, previous_hash := some "1" }

/-- Concrete successor block that links after `gBlock` under `shaZero`. -/
def okBlock : Block :=
  { index := 2, timestamp := 0, transactions := [], proof := 0, previous_hash := some "0000" }

/-- A second, distinct successor block linking after `gBlock` under `shaZero`. -/
def okBlockB : Block :=
  { index := 2, timestamp := 0, transactions := [], proof := 1, previous_hash := some "0000" }

/-- A concrete two-block chain that `valid_chain` accepts under `shaZero`. -/
def chainA : List Block := [gBlock, okBlock]

/-- A distinct concrete two-block chain that `valid_chain` accepts under
`shaZero`. -/
def chainB : List Block := [gBlock, okBlockB]

/-- An arbitrary standalone block (single-block chains are trivially valid). -/
def soloBlock : Block :=
  { index := 7, timestamp := 3, transactions := [], proof := 5, previous_hash := some "x" }

/-- Another arbitrary standalone block. -/
def soloBlockB : Block :=
  { index := 9, timestamp := 4, transactions := [], proof := 6, previous_hash := some "y" }

/-- A third arbitrary standalone block. -/
def soloBlockC : Block :=
  { index := 11, timestamp := 5, transactions := [], proof := 2, previous_hash := some "z" }

/-- A concrete local state holding two blocks (genesis plus one mined block). -/
def stTwo : Blockchain := run shaZero [.mine 0 7 none] (Blockchain.init shaZero 0)

/-- Concrete operation sequence for claim C4's counterexample: record one
transaction, mine it, then adopt a peer chain that does not contain it. -/
def opsC4 : List Op := [.tx "a" "b" 1, .mine 0 7 none, .resolve [.ok 3 [soloBlock]]]

/-! ### Helper lemmas -/

theorem adjPairsAll_iff_chain {α : Type} (p : α → α → Bool) (l : List α) :
    adjPairsAll p l = true ↔ List.Chain' (fun a b => p a b = true) l := by
  induction l with
  | nil => simp [adjPairsAll]
  | cons a t ih =>
    cases t with
    | nil => simp [adjPairsAll]
    | cons b t' =>
      rw [List.chain'_cons, ← ih]
      simp [adjPairsAll]

theorem chain_linked_append (sha : String → String) (l : List Block) (b : Block)
    (hl : chain_linked sha l = true)
    (hb : ∀ a, l.getLast? = some a → b.previous_hash = some (Blockchain.hash sha a)) :
    chain_linked sha (l ++ [b]) = true := by
  rw [chain_linked, adjPairsAll_iff_chain] at hl ⊢
  rw [List.chain'_append]
  refine ⟨hl, by simp, ?_⟩
  intro x hx y hy
  simp only [List.head?_cons, Option.mem_def, Option.some.injEq] at hy
  subst hy
  simp only [Option.mem_def] at hx
  simp [hb x hx]

theorem valid_chain_ne_nil (sha : String → String) (c : List Block) (b : Bool)
    (h : Blockchain.valid_chain sha c = some b) : c ≠ [] := by
  intro hc
  subst hc
  simp [Blockchain.valid_chain] at h

theorem pow_from_sound (sha : String → String) (lp : Int) (lh tgt : String) :
    ∀ (fuel s p : Nat), pow_from sha lp lh tgt s fuel = some p →
      s ≤ p ∧ Blockchain.valid_proof sha lp p lh tgt = true ∧
        ∀ q, s ≤ q → q < p → Blockchain.valid_proof sha lp q lh tgt = false := by
  intro fuel
  induction fuel with
  | zero => intro s p h; simp [pow_from] at h
  | succ n ih =>
    intro s p h
    rw [pow_from] at h
    by_cases hv : Blockchain.valid_proof sha lp s lh tgt = true
    · rw [if_pos hv] at h
      obtain rfl : s = p := by simpa using h
      exact ⟨le_refl _, hv, fun q h1 h2 => absurd (lt_of_le_of_lt h1 h2) (lt_irrefl _)⟩
    · rw [if_neg hv] at h
      obtain ⟨h1, h2, h3⟩ := ih (s + 1) p h
      refine ⟨by omega, h2, ?_⟩
      intro q hq1 hq2
      rcases Nat.eq_or_lt_of_le hq1 with rfl | hlt
      · exact Bool.not_eq_true _ ▸ (Bool.eq_false_iff.mpr (by exact fun hh => hv hh))
      · exact h3 q (by omega) hq2

theorem pow_from_isSome (sha : String → String) (lp : Int) (lh tgt : String) :
    ∀ (fuel s n : Nat), s ≤ n → n < s + fuel →
      Blockchain.valid_proof sha lp n lh tgt = true →
      (pow_from sha lp lh tgt s fuel).isSome = true := by
  intro fuel
  induction fuel with
  | zero => intro s n h1 h2 _; omega
  | succ m ih =>
    intro s n h1 h2 hv
    rw [pow_from]
    by_cases hvs : Blockchain.valid_proof sha lp s lh tgt = true
    · rw [if_pos hvs]; rfl
    · rw [if_neg hvs]
      have hsn : s ≠ n := by
        intro hh; subst hh; exact hvs hv
      exact ih (s + 1) n (by omega) (by omega) hv

theorem valid_chain_loop_spec (sha : String → String) :
    ∀ (rest : List Block) (b : Block), (∀ blk ∈ rest, blk.previous_hash ≠ none) →
      valid_chain_loop sha b rest = some (valid_chain_spec sha (b :: rest)) := by
  intro rest
  induction rest with
  | nil => intro b _; rfl
  | cons cur rest' ih =>
    intro b h
    obtain ⟨ph, hph⟩ : ∃ ph, cur.previous_hash = some ph := by
      cases hc : cur.previous_hash with
      | none => exact absurd hc (h cur (by simp))
      | some s => exact ⟨s, rfl⟩
    have hspec : valid_chain_spec sha (b :: cur :: rest') =
        (((cur.previous_hash == some (Blockchain.hash sha b)) &&
            Blockchain.valid_proof sha b.proof cur.proof (refHash sha b) (target_of DIFFICULTY)) &&
          valid_chain_spec sha (cur :: rest')) := rfl
    have htail : valid_chain_loop sha cur rest' = some (valid_chain_spec sha (cur :: rest')) :=
      ih cur (fun blk hblk => h blk (List.mem_cons_of_mem _ hblk))
    simp only [valid_chain_loop, hph]
    by_cases h1 : ph = Blockchain.hash sha b
    · rw [if_neg (show ¬ ph ≠ Blockchain.hash sha b from fun hh => hh h1)]
      by_cases h2 : Blockchain.valid_proof sha b.proof cur.proof (refHash sha b)
          (target_of DIFFICULTY) = true
      · rw [if_pos h2, htail, hspec, hph, h1, h2]
        simp
      · have h2f : Blockchain.valid_proof sha b.proof cur.proof (refHash sha b)
            (target_of DIFFICULTY) = false := Bool.eq_false_iff.mpr h2
        rw [if_neg h2, hspec]
        simp [h2f]
    · rw [if_pos (show ph ≠ Blockchain.hash sha b from h1), hspec, hph]
      have hbe : (some ph == some (Blockchain.hash sha b)) = false := by
        simp [h1]
      simp [hbe]

theorem resolve_scan_stall (sha : String → String) :
    ∀ (rs : List PeerResponse) (m : Nat) (best : Option (List Block)),
      (∀ len c, PeerResponse.ok len c ∈ rs → ¬ m < len) →
      resolve_scan sha m best rs = some (m, best) := by
  intro rs
  induction rs with
  | nil => intro m best _; rfl
  | cons r rs' ih =>
    intro m best h
    cases r with
    | error =>
      show resolve_scan sha m best rs' = some (m, best)
      exact ih m best (fun len c hm => h len c (List.mem_cons_of_mem _ hm))
    | ok len c =>
      rw [resolve_scan, if_neg (h len c (List.mem_cons_self _ _))]
      exact ih m best (fun len' c' hm => h len' c' (List.mem_cons_of_mem _ hm))

theorem resolve_scan_keeps_some (sha : String → String) :
    ∀ (rs : List PeerResponse) (m : Nat) (c : List Block) (res : Nat × Option (List Block)),
      resolve_scan sha m (some c) rs = some res → ∃ d, res.2 = some d := by
  intro rs
  induction rs with
  | nil =>
    intro m c res h
    obtain rfl : (m, some c) = res := by simpa [resolve_scan] using h
    exact ⟨c, rfl⟩
  | cons r rs' ih =>
    intro m c res h
    cases r with
    | error => exact ih m c res h
    | ok len ch =>
      rw [resolve_scan] at h
      by_cases hm : m < len
      · rw [if_pos hm] at h
        cases hv : Blockchain.valid_chain sha ch with
        | none => rw [hv] at h; simp at h
        | some b =>
          rw [hv] at h
          cases b with
          | true => exact ih len ch res h
          | false => exact ih m c res h
      · rw [if_neg hm] at h
        exact ih m c res h

theorem resolve_scan_adopt_from (sha : String → String) :
    ∀ (rs : List PeerResponse) (m : Nat) (c : List Block) (m' : Nat) (c' : List Block),
      resolve_scan sha m (some c) rs = some (m', some c') →
      c' = c ∨ ∃ len, PeerResponse.ok len c' ∈ rs ∧ m < len ∧
        Blockchain.valid_chain sha c' = some true := by
  intro rs
  induction rs with
  | nil =>
    intro m c m' c' h
    left
    have h2 : (m, some c) = (m', some c') := by simpa [resolve_scan] using h
    injection h2 with _ hb
    injection hb with hb'
    exact hb'.symm
  | cons r rs' ih =>
    intro m c m' c' h
    cases r with
    | error =>
      rcases ih m c m' c' h with h1 | ⟨len, hmem, hlt, hv⟩
      · exact Or.inl h1
      · exact Or.inr ⟨len, List.mem_cons_of_mem _ hmem, hlt, hv⟩
    | ok len ch =>
      rw [resolve_scan] at h
      by_cases hm : m < len
      · rw [if_pos hm] at h
        cases hv : Blockchain.valid_chain sha ch with
        | none => rw [hv] at h; simp at h
        | some b =>
          rw [hv] at h
          cases b with
          | true =>
            rcases ih len ch m' c' h with rfl | ⟨len', hmem, hlt, hv'⟩
            · exact Or.inr ⟨len, List.mem_cons_self _ _, hm, hv⟩
            · exact Or.inr ⟨len', List.mem_cons_of_mem _ hmem, lt_trans hm hlt, hv'⟩
          | false =>
            rcases ih m c m' c' h with h1 | ⟨len', hmem, hlt, hv'⟩
            · exact Or.inl h1
            · exact Or.inr ⟨len', List.mem_cons_of_mem _ hmem, hlt, hv'⟩
      · rw [if_neg hm] at h
        rcases ih m c m' c' h with h1 | ⟨len', hmem, hlt, hv'⟩
        · exact Or.inl h1
        · exact Or.inr ⟨len', List.mem_cons_of_mem _ hmem, hlt, hv'⟩

theorem resolve_scan_adopt_origin (sha : String → String) :
    ∀ (rs : List PeerResponse) (m : Nat) (m' : Nat) (c' : List Block),
      resolve_scan sha m none rs = some (m', some c') →
      ∃ len, PeerResponse.ok len c' ∈ rs ∧ m < len ∧
        Blockchain.valid_chain sha c' = some true := by
  intro rs
  induction rs with
  | nil =>
    intro m m' c' h
    have h2 : (m, (none : Option (List Block))) = (m', some c') := Option.some.inj h
    simp at h2
  | cons r rs' ih =>
    intro m m' c' h
    cases r with
    | error =>
      obtain ⟨len, hmem, hlt, hv⟩ := ih m m' c' h
      exact ⟨len, List.mem_cons_of_mem _ hmem, hlt, hv⟩
    | ok len ch =>
      rw [resolve_scan] at h
      by_cases hm : m < len
      · rw [if_pos hm] at h
        cases hv : Blockchain.valid_chain sha ch with
        | none => rw [hv] at h; simp at h
        | some b =>
          rw [hv] at h
          cases b with
          | true =>
            rcases resolve_scan_adopt_from sha rs' len ch m' c' h with rfl | ⟨len', hmem, hlt, hv'⟩
            · exact ⟨len, List.mem_cons_self _ _, hm, hv⟩
            · exact ⟨len', List.mem_cons_of_mem _ hmem, lt_trans hm hlt, hv'⟩
          | false =>
            obtain ⟨len', hmem, hlt, hv'⟩ := ih m m' c' h
            exact ⟨len', List.mem_cons_of_mem _ hmem, hlt, hv'⟩
      · rw [if_neg hm] at h
        obtain ⟨len', hmem, hlt, hv'⟩ := ih m m' c' h
        exact ⟨len', List.mem_cons_of_mem _ hmem, hlt, hv'⟩

theorem resolve_scan_complete (sha : String → String) :
    ∀ (rs : List PeerResponse) (m : Nat) (best : Option (List Block))
      (res : Nat × Option (List Block)),
      resolve_scan sha m best rs = some res →
      (∃ len c, PeerResponse.ok len c ∈ rs ∧ m < len ∧
        Blockchain.valid_chain sha c = some true) →
      ∃ c', res.2 = some c' ∧ Blockchain.valid_chain sha c' = some true := by
  intro rs
  induction rs with
  | nil =>
    intro m best res _ hex
    obtain ⟨_, _, hmem, _, _⟩ := hex
    simp at hmem
  | cons r rs' ih =>
    intro m best res h hex
    obtain ⟨len, c, hmem, hlt, hv⟩ := hex
    cases r with
    | error =>
      have hmem' : PeerResponse.ok len c ∈ rs' := by
        simpa using hmem
      exact ih m best res h ⟨len, c, hmem', hlt, hv⟩
    | ok len0 ch0 =>
      rw [resolve_scan] at h
      by_cases hm : m < len0
      · rw [if_pos hm] at h
        cases hv0 : Blockchain.valid_chain sha ch0 with
        | none => rw [hv0] at h; simp at h
        | some b =>
          rw [hv0] at h
          cases b with
          | true =>
            obtain ⟨e, he⟩ := resolve_scan_keeps_some sha rs' len0 ch0 res h
            rcases resolve_scan_adopt_from sha rs' len0 ch0 res.1 e
                (by rw [← he]; exact (Prod.mk.eta (p := res)) ▸ h) with rfl | ⟨_, _, _, hv'⟩
            · exact ⟨e, he, hv0⟩
            · exact ⟨e, he, hv'⟩
          | false =>
            rcases List.mem_cons.mp hmem with heq | hmem'
            · obtain ⟨rfl, rfl⟩ : len = len0 ∧ c = ch0 := by
                injection heq with h1 h2; exact ⟨h1, h2⟩
              rw [hv0] at hv; simp at hv
            · exact ih m best res h ⟨len, c, hmem', hlt, hv⟩
      · rw [if_neg hm] at h
        rcases List.mem_cons.mp hmem with heq | hmem'
        · obtain ⟨rfl, rfl⟩ : len = len0 ∧ c = ch0 := by
            injection heq with h1 h2; exact ⟨h1, h2⟩
          exact absurd hlt hm
        · exact ih m best res h ⟨len, c, hmem', hlt, hv⟩

theorem resolve_scan_first_tie (sha : String → String) (L : Nat) :
    ∀ (rs : List PeerResponse) (m : Nat) (c₀ : List Block),
      m < L →
      (∀ len c, PeerResponse.ok len c ∈ rs → m < len →
        len = L ∧ Blockchain.valid_chain sha c = some true) →
      first_longer m rs = some c₀ →
      resolve_scan sha m none rs = some (L, some c₀) := by
  intro rs
  induction rs with
  | nil => intro m c₀ _ _ hf; simp [first_longer] at hf
  | cons r rs' ih =>
    intro m c₀ hmL h hf
    cases r with
    | error =>
      exact ih m c₀ hmL (fun len c hmem => h len c (List.mem_cons_of_mem _ hmem)) hf
    | ok len c =>
      by_cases hm : m < len
      · obtain ⟨hlen, hv⟩ := h len c (List.mem_cons_self _ _) hm
        have hc₀ : c₀ = c := by
          rw [first_longer, if_pos hm] at hf
          injection hf with hf'
          exact hf'.symm
        subst hc₀
        have hstep : resolve_scan sha m none (PeerResponse.ok len c₀ :: rs') =
            resolve_scan sha len (some c₀) rs' := by
          rw [resolve_scan, if_pos hm, hv]
        rw [hstep, hlen]
        exact resolve_scan_stall sha rs' L (some c₀) (by
          intro len' c' hmem hL'
          by_cases hm' : m < len'
          · have hlen' := (h len' c' (List.mem_cons_of_mem _ hmem) hm').1
            omega
          · omega)
      · rw [first_longer, if_neg hm] at hf
        rw [resolve_scan, if_neg hm]
        exact ih m c₀ hmL (fun len' c' hmem => h len' c' (List.mem_cons_of_mem _ hmem)) hf

theorem resolve_conflicts_pool (sha : String → String) (st : Blockchain)
    (rs : List PeerResponse) (b : Bool) (st' : Blockchain)
    (h : Blockchain.resolve_conflicts sha st rs = some (b, st')) :
    st'.current_transactions = st.current_transactions := by
  unfold Blockchain.resolve_conflicts at h
  cases hs : resolve_scan sha st.chain.length none rs with
  | none => rw [hs] at h; simp at h
  | some res =>
    rw [hs] at h
    simp only [Option.map_some'] at h
    cases hres : res.2 with
    | none =>
      rw [hres] at h
      have h' : some ((false, st)) = some (b, st') := h
      obtain ⟨-, rfl⟩ : false = b ∧ st = st' := by
        injection h' with h''; injection h'' with h1 h2; exact ⟨h1, h2⟩
      rfl
    | some c =>
      rw [hres] at h
      have h' : some (if c.isEmpty then (false, st) else (true, { st with chain := c })) =
          some (b, st') := h
      by_cases hc : c.isEmpty
      · rw [if_pos hc] at h'
        obtain ⟨-, rfl⟩ : false = b ∧ st = st' := by
          injection h' with h''; injection h'' with h1 h2; exact ⟨h1, h2⟩
        rfl
      · rw [if_neg hc] at h'
        obtain ⟨-, rfl⟩ : true = b ∧ { st with chain := c } = st' := by
          injection h' with h''; injection h'' with h1 h2; exact ⟨h1, h2⟩
        rfl

theorem sortFields_perm_eq (f1 f2 : List (String × String))
    (hnd : (f1.map Prod.fst).Nodup) (hp : f1.Perm f2) :
    sortFields f1 = sortFields f2 := by
  have htrans : ∀ (a b c : String × String),
      keyLe a b = true → keyLe b c = true → keyLe a c = true := by
    intro a b c h1 h2
    simp only [keyLe, decide_eq_true_eq] at h1 h2 ⊢
    exact le_trans h1 h2
  have htotal : ∀ (a b : String × String), (keyLe a b || keyLe b a) = true := by
    intro a b
    simp only [keyLe, Bool.or_eq_true, decide_eq_true_eq]
    exact le_total a.1 b.1
  have hs1 := List.sorted_mergeSort htrans htotal f1
  have hs2 := List.sorted_mergeSort htrans htotal f2
  have hperm : (sortFields f1).Perm (sortFields f2) :=
    ((List.mergeSort_perm f1 keyLe).trans hp).trans (List.mergeSort_perm f2 keyLe).symm
  have hnd1 : ((sortFields f1).map Prod.fst).Nodup :=
    (List.Perm.nodup_iff ((List.mergeSort_perm f1 keyLe).map Prod.fst)).mpr hnd
  have hnd2 : ((sortFields f2).map Prod.fst).Nodup :=
    (List.Perm.nodup_iff ((hperm.symm).map Prod.fst)).mpr hnd1
  have hkey1 : List.Pairwise (fun a b : String × String => a.1 ≠ b.1) (sortFields f1) :=
    List.pairwise_map.mp hnd1
  have hkey2 : List.Pairwise (fun a b : String × String => a.1 ≠ b.1) (sortFields f2) :=
    List.pairwise_map.mp hnd2
  have hlt1 : List.Pairwise (fun a b : String × String => a.1 < b.1) (sortFields f1) :=
    (hs1.and hkey1).imp fun h =>
      lt_of_le_of_ne (by simpa [keyLe] using h.1) h.2
  have hlt2 : List.Pairwise (fun a b : String × String => a.1 < b.1) (sortFields f2) :=
    (hs2.and hkey2).imp fun h =>
      lt_of_le_of_ne (by simpa [keyLe] using h.1) h.2
  exact @List.eq_of_perm_of_sorted _ _
    ⟨fun a b h1 h2 => absurd h2 (lt_asymm h1)⟩ _ _ hperm hlt1 hlt2

theorem first_longer_mem (m : Nat) :
    ∀ (rs : List PeerResponse) (c : List Block),
      first_longer m rs = some c → ∃ len, PeerResponse.ok len c ∈ rs ∧ m < len := by
  intro rs
  induction rs with
  | nil => intro c h; simp [first_longer] at h
  | cons r rs' ih =>
    intro c h
    cases r with
    | error =>
      obtain ⟨len, hmem, hlt⟩ := ih c h
      exact ⟨len, List.mem_cons_of_mem _ hmem, hlt⟩
    | ok len ch =>
      rw [first_longer] at h
      by_cases hm : m < len
      · rw [if_pos hm] at h
        injection h with h'
        exact ⟨len, h' ▸ List.mem_cons_self _ _, hm⟩
      · rw [if_neg hm] at h
        obtain ⟨len', hmem, hlt⟩ := ih c h
        exact ⟨len', List.mem_cons_of_mem _ hmem, hlt⟩

theorem lastHashOr_getLast (sha : String → String) (chain : List Block) (a : Block)
    (h : chain.getLast? = some a) : lastHashOr sha chain = Blockchain.hash sha a := by
  rw [lastHashOr, h]

theorem new_block_good_ph (sha : String → String) (ts : Nat) (st : Blockchain) (proof : Int)
    (ph : Option String)
    (hph : (ph == none || ph == some "" || ph == some (lastHashOr sha st.chain)) = true) :
    (Blockchain.new_block sha ts st proof ph).1.previous_hash =
      some (lastHashOr sha st.chain) := by
  simp only [Bool.or_eq_true, beq_iff_eq] at hph
  rcases hph with (rfl | rfl) | rfl
  · rfl
  · simp [Blockchain.new_block]
  · by_cases hs : lastHashOr sha st.chain = ""
    · simp [Blockchain.new_block, hs]
    · simp [Blockchain.new_block, hs]

/-! ### Claim theorems -/

/-- C8: a freshly constructed ledger holds exactly the genesis block — index
1, sentinel proof 100, sentinel `previous_hash` `"1"` — and an empty pending
pool, for every digest primitive and construction timestamp. -/
theorem C8_genesis_state (sha : String → String) (ts0 : Nat) :
    Blockchain.init sha ts0 =
      { chain := [{ index := 1, timestamp := ts0, transactions := [], proof := 100,
                    previous_hash := some "1" }],
        current_transactions := [] } := rfl

/-- C7: after three `new_transaction` calls followed by `new_block`, the pool
is empty and the mined block carries exactly the three transactions in
submission order; a later `new_transaction` leaves the chain — hence the
mined block — unchanged. -/
theorem C7_pool_into_block (sha : String → String) (ts0 : Nat)
    (s1 r1 : String) (a1 : Int) (s2 r2 : String) (a2 : Int) (s3 r3 : String) (a3 : Int)
    (ts : Nat) (proof : Int) (ph : Option String) (s4 r4 : String) (a4 : Int) :
    (run sha [.tx s1 r1 a1, .tx s2 r2 a2, .tx s3 r3 a3, .mine ts proof ph]
        (Blockchain.init sha ts0)).current_transactions = [] ∧
    ((run sha [.tx s1 r1 a1, .tx s2 r2 a2, .tx s3 r3 a3, .mine ts proof ph]
        (Blockchain.init sha ts0)).chain[1]?).map Block.transactions =
      some [⟨s1, r1, a1⟩, ⟨s2, r2, a2⟩, ⟨s3, r3, a3⟩] ∧
    (applyOp sha
        (run sha [.tx s1 r1 a1, .tx s2 r2 a2, .tx s3 r3 a3, .mine ts proof ph]
          (Blockchain.init sha ts0))
        (.tx s4 r4 a4)).chain =
      (run sha [.tx s1 r1 a1, .tx s2 r2 a2, .tx s3 r3 a3, .mine ts proof ph]
        (Blockchain.init sha ts0)).chain :=
  ⟨rfl, rfl, rfl⟩

/-- C2: on a chain whose non-initial blocks all carry a `previous_hash`
field, `valid_chain` returns exactly the conjunction, over every adjacent
pair, of the hash-linkage check and the proof-of-work check against the
reference hash `prev.previous_hash`-if-present-else-`hash(prev)`; in
particular it returns `some true` on any single-block chain (`rest = []`). -/
theorem C2_valid_chain_walk (sha : String → String) (b : Block) (rest : List Block)
    (h : ∀ blk ∈ rest, blk.previous_hash ≠ none) :
    Blockchain.valid_chain sha (b :: rest) = some (valid_chain_spec sha (b :: rest)) :=
  valid_chain_loop_spec sha rest b h

/-- Witness for C2 at a concrete two-block chain under `shaZero`. -/
theorem C2_valid_chain_walk_witness :
    Blockchain.valid_chain shaZero (gBlock :: [okBlock]) =
      some (valid_chain_spec shaZero (gBlock :: [okBlock])) :=
  C2_valid_chain_walk shaZero gBlock [okBlock] (by decide)

/-- C5: for every last proof, reference hash and difficulty `d`, if some
nonce satisfies `valid_proof` (and the fuel covers it), the ascending search
of `proof_of_work` (modelled by `pow_from`, started at 0, with target
`'0' * d`) returns a valid proof that is the least non-negative solution. -/
theorem C5_proof_of_work_minimal (sha : String → String) (lp : Int) (lh : String)
    (d n fuel : Nat)
    (hsol : Blockchain.valid_proof sha lp n lh (target_of d) = true)
    (hfuel : n < fuel) :
    ∃ p, pow_from sha lp lh (target_of d) 0 fuel = some p ∧
      Blockchain.valid_proof sha lp p lh (target_of d) = true ∧
      ∀ q, q < p → Blockchain.valid_proof sha lp q lh (target_of d) = false := by
  have hsome := pow_from_isSome sha lp lh (target_of d) fuel 0 n (Nat.zero_le n)
    (by omega) hsol
  obtain ⟨p, hp⟩ := Option.isSome_iff_exists.mp hsome
  obtain ⟨-, h2, h3⟩ := pow_from_sound sha lp lh (target_of d) fuel 0 p hp
  exact ⟨p, hp, h2, fun q hq => h3 q (Nat.zero_le q) hq⟩

/-- Witness for C5 under `shaStep` at difficulty 1: the minimal solution is
found (namely 2) within fuel 3. -/
theorem C5_proof_of_work_minimal_witness :
    ∃ p, pow_from shaStep 0 "abc" (target_of 1) 0 3 = some p ∧
      Blockchain.valid_proof shaStep 0 p "abc" (target_of 1) = true ∧
      ∀ q, q < p → Blockchain.valid_proof shaStep 0 q "abc" (target_of 1) = false :=
  C5_proof_of_work_minimal shaStep 0 "abc" 1 2 3 (by decide) (by decide)

/-- C9: the dict fingerprint is deterministic, and two dicts equal as
field-to-value maps (same fields, duplicate-free, in any insertion order)
hash identically, because the encoding sorts fields by name. -/
theorem C9_hash_canonical (sha : String → String) (f1 f2 : List (String × String))
    (hnd : (f1.map Prod.fst).Nodup) (hp : f1.Perm f2) :
    hashDict sha f1 = hashDict sha f1 ∧ hashDict sha f1 = hashDict sha f2 :=
  ⟨rfl, by rw [hashDict, hashDict, sortFields_perm_eq f1 f2 hnd hp]⟩

/-- Witness for C9 on a concrete two-field dict and its reversal. -/
theorem C9_hash_canonical_witness :
    hashDict shaZero [("b", "1"), ("a", "2")] = hashDict shaZero [("b", "1"), ("a", "2")] ∧
    hashDict shaZero [("b", "1"), ("a", "2")] = hashDict shaZero [("a", "2"), ("b", "1")] :=
  C9_hash_canonical shaZero [("b", "1"), ("a", "2")] [("a", "2"), ("b", "1")]
    (by decide) (by decide)

/-- Counterexample to C3 as stated: mining with an arbitrary supplied
previous-hash argument (`"x"`) yields a block whose `previous_hash` is not
the fingerprint of its predecessor — `new_block` stores a truthy supplied
argument verbatim. -/
theorem C3_link_counterexample :
    chain_linked shaZero
      (run shaZero [.mine 1 5 (some "x")] (Blockchain.init shaZero 0)).chain = false := by
  decide

/-- C3 (amended): every chain produced solely by `new_block` calls whose
supplied previous-hash argument is omitted, empty, or equal to the
fingerprint of the chain's current last block satisfies the linking
invariant: each non-genesis block's `previous_hash` is the fingerprint of
its immediate predecessor. -/
theorem C3_link_invariant (sha : String → String) (ts0 : Nat) (ops : List Op)
    (h : goodMine sha (Blockchain.init sha ts0) ops = true) :
    chain_linked sha (run sha ops (Blockchain.init sha ts0)).chain = true := by
  suffices H : ∀ (ops : List Op) (st : Blockchain), st.chain ≠ [] →
      chain_linked sha st.chain = true → goodMine sha st ops = true →
      chain_linked sha (run sha ops st).chain = true by
    exact H ops (Blockchain.init sha ts0) (by simp [Blockchain.init, Blockchain.new_block])
      (by rfl) h
  intro ops'
  induction ops' with
  | nil => intro st _ hl _; exact hl
  | cons op ops'' ih =>
    intro st hne hl hg
    cases op with
    | tx s r a => simp [goodMine] at hg
    | resolve rs => simp [goodMine] at hg
    | mine ts proof ph =>
      rw [goodMine, Bool.and_eq_true] at hg
      obtain ⟨hph, hg'⟩ := hg
      show chain_linked sha (run sha ops'' (applyOp sha st (.mine ts proof ph))).chain = true
      apply ih (applyOp sha st (.mine ts proof ph))
      · show st.chain ++ [(Blockchain.new_block sha ts st proof ph).1] ≠ []
        simp
      · show chain_linked sha
          (st.chain ++ [(Blockchain.new_block sha ts st proof ph).1]) = true
        apply chain_linked_append sha st.chain _ hl
        intro a ha
        rw [new_block_good_ph sha ts st proof ph hph, lastHashOr_getLast sha st.chain a ha]
      · exact hg'

/-- Witness for C3 (amended): two mine operations, one omitting the argument
and one supplying the current last block's fingerprint, produce a linked
chain under `shaZero`. -/
theorem C3_link_invariant_witness :
    goodMine shaZero (Blockchain.init shaZero 0)
        [.mine 1 7 none, .mine 2 8 (some "0000")] = true ∧
    chain_linked shaZero
      (run shaZero [.mine 1 7 none, .mine 2 8 (some "0000")]
        (Blockchain.init shaZero 0)).chain = true :=
  ⟨by decide, C3_link_invariant shaZero 0 [.mine 1 7 none, .mine 2 8 (some "0000")] (by decide)⟩

/-- Counterexample to C4 as stated: record a transaction, mine it, then
adopt a longer-reporting peer chain that does not contain it — the pool is
now empty although the recorded transaction is embedded in no block of the
current chain. -/
theorem C4_pool_counterexample :
    ¬ ((run shaZero opsC4 (Blockchain.init shaZero 0)).current_transactions =
        (recordedTxs opsC4).filter
          (fun t => decide (t ∉ embeddedTxs (run shaZero opsC4 (Blockchain.init shaZero 0))))) := by
  decide

/-- C4 (amended): in every reachable state the pending pool is exactly the
sequence of transactions recorded since the most recent `new_block` call;
chain replacement by `resolve_conflicts` neither removes nor restores pool
entries. -/
theorem C4_pool_invariant (sha : String → String) (ts0 : Nat) (ops : List Op) :
    (run sha ops (Blockchain.init sha ts0)).current_transactions = expected_pool ops := by
  suffices H : ∀ (ops : List Op) (st : Blockchain) (acc : List Transaction),
      st.current_transactions = acc →
      (run sha ops st).current_transactions = ops.foldl pool_step acc by
    exact H ops (Blockchain.init sha ts0) [] rfl
  intro ops'
  induction ops' with
  | nil => intro st acc hst; exact hst
  | cons op ops'' ih =>
    intro st acc hst
    show (run sha ops'' (applyOp sha st op)).current_transactions =
      List.foldl pool_step (pool_step acc op) ops''
    cases op with
    | tx s r a =>
      exact ih (applyOp sha st (.tx s r a)) (acc ++ [⟨s, r, a⟩]) (by
        show st.current_transactions ++ [(⟨s, r, a⟩ : Transaction)] = acc ++ [⟨s, r, a⟩]
        rw [hst])
    | mine ts proof ph =>
      exact ih (applyOp sha st (.mine ts proof ph)) [] rfl
    | resolve rs =>
      apply ih (applyOp sha st (.resolve rs)) acc
      show (match Blockchain.resolve_conflicts sha st rs with
        | some (_, st') => st'
        | none => st).current_transactions = acc
      cases hr : Blockchain.resolve_conflicts sha st rs with
      | none => exact hst
      | some p =>
        obtain ⟨b, st'⟩ := p
        rw [resolve_conflicts_pool sha st rs b st' hr]
        exact hst

/-- C10: `resolve_conflicts` compares the peer-reported `length` field, not
the fetched chain's block count: a peer reporting length 5 with a valid
single-block chain replaces a two-block local chain, and the call returns
true. -/
theorem C10_reported_length_vs_actual :
    Blockchain.resolve_conflicts shaZero stTwo [.ok 5 [soloBlockB]] =
      some (true, { stTwo with chain := [soloBlockB] }) ∧
    [soloBlockB].length < stTwo.chain.length ∧
    stTwo.chain.length < 5 ∧
    Blockchain.valid_chain shaZero [soloBlockB] = some true := by
  decide

/-- Counterexample to C1 as stated: two peers report equal length 2 (> local
length 1) with distinct valid chains; the chain adopted is the first
encountered (`chainA`), not the last (`chainB`). -/
theorem C1_tie_counterexample :
    Blockchain.resolve_conflicts shaZero (Blockchain.init shaZero 0)
        [.ok 2 chainA, .ok 2 chainB] =
      some (true, { Blockchain.init shaZero 0 with chain := chainA }) ∧
    Blockchain.resolve_conflicts shaZero (Blockchain.init shaZero 0)
        [.ok 2 chainA, .ok 2 chainB] ≠
      some (true, { Blockchain.init shaZero 0 with chain := chainB }) ∧
    chainA ≠ chainB := by
  decide

/-- C1 (amended): when every scanned candidate reported as strictly longer
than the local chain reports the same length `L` and validates, the chain
adopted is the one encountered FIRST during the scan (the running
`max_length` is bumped to `L`, so later equal-length candidates fail the
strict comparison); and candidates whose reported lengths are all at most
the local length never replace the local chain. -/
theorem C1_tie_break (sha : String → String) (st st2 : Blockchain)
    (rs rs2 : List PeerResponse) (L : Nat) (c₀ : List Block) :
    ((st.chain.length < L) →
      (∀ r ∈ rs, tie_ok sha st.chain.length L r = true) →
      first_longer st.chain.length rs = some c₀ →
      Blockchain.resolve_conflicts sha st rs = some (true, { st with chain := c₀ })) ∧
    ((∀ r ∈ rs2, not_longer st2.chain.length r = true) →
      Blockchain.resolve_conflicts sha st2 rs2 = some (false, st2)) := by
  constructor
  · intro hL h hf
    have h' : ∀ len c, PeerResponse.ok len c ∈ rs → st.chain.length < len →
        len = L ∧ Blockchain.valid_chain sha c = some true := by
      intro len c hmem hlt
      have := h (PeerResponse.ok len c) hmem
      rw [tie_ok] at this
      simp only [Bool.or_eq_true, Bool.not_eq_true', decide_eq_false_iff_not,
        Bool.and_eq_true, decide_eq_true_eq, beq_iff_eq] at this
      rcases this with hnot | hok
      · exact absurd hlt hnot
      · exact hok
    have hscan := resolve_scan_first_tie sha L rs st.chain.length c₀ hL h' hf
    have hvc₀ : Blockchain.valid_chain sha c₀ = some true := by
      obtain ⟨len, hmem, hlt⟩ := first_longer_mem st.chain.length rs c₀ hf
      exact (h' len c₀ hmem hlt).2
    have hne : ¬ c₀.isEmpty = true := by
      rw [List.isEmpty_iff]
      exact valid_chain_ne_nil sha c₀ true hvc₀
    unfold Blockchain.resolve_conflicts
    rw [hscan]
    show some (if c₀.isEmpty then (false, st) else (true, { st with chain := c₀ })) =
      some (true, { st with chain := c₀ })
    rw [if_neg hne]
  · intro h2
    have hscan := resolve_scan_stall sha rs2 st2.chain.length none (by
      intro len c hmem
      have := h2 (PeerResponse.ok len c) hmem
      rw [not_longer] at this
      simp only [decide_eq_true_eq] at this
      omega)
    unfold Blockchain.resolve_conflicts
    rw [hscan]
    rfl

/-- Witness for C1 (amended): two equal-reporting valid candidates — the
first is adopted; and a single candidate reporting no more than the local
length leaves the chain untouched. -/
theorem C1_tie_break_witness :
    Blockchain.resolve_conflicts shaZero (Blockchain.init shaZero 0)
        [.ok 3 chainA, .ok 3 chainB] =
      some (true, { Blockchain.init shaZero 0 with chain := chainA }) ∧
    Blockchain.resolve_conflicts shaZero (Blockchain.init shaZero 0) [.ok 1 chainA] =
      some (false, Blockchain.init shaZero 0) :=
  ⟨(C1_tie_break shaZero (Blockchain.init shaZero 0) (Blockchain.init shaZero 0)
      [.ok 3 chainA, .ok 3 chainB] [.ok 1 chainA] 3 chainA).1
      (by decide) (by decide) (by decide),
   (C1_tie_break shaZero (Blockchain.init shaZero 0) (Blockchain.init shaZero 0)
      [.ok 3 chainA, .ok 3 chainB] [.ok 1 chainA] 3 chainA).2
      (by decide)⟩

/-- Counterexample to C6 as stated: the peer's fetched chain (one block) is
strictly shorter than the local chain (two blocks), yet because the
peer-reported length 4 exceeds the local length, `resolve_conflicts`
replaces the chain and returns true. -/
theorem C6_resolve_counterexample :
    Blockchain.resolve_conflicts shaZero stTwo [.ok 4 [soloBlockC]] =
      some (true, { stTwo with chain := [soloBlockC] }) ∧
    [soloBlockC].length < stTwo.chain.length := by
  decide

/-- C6 (amended): whenever `resolve_conflicts` completes without raising, it
returns true (and st' carries the adopted chain) iff some scanned response
has a peer-reported length strictly greater than the local chain's length
and a chain that `valid_chain` accepts; and whenever it returns false the
local state is exactly the prior state. -/
theorem C6_resolve_iff (sha : String → String) (st : Blockchain)
    (responses : List PeerResponse) (replaced : Bool) (st' : Blockchain)
    (h : Blockchain.resolve_conflicts sha st responses = some (replaced, st')) :
    (replaced = true ↔ ∃ r ∈ responses, qualifies sha st.chain.length r = true) ∧
    (replaced = false → st' = st) := by
  unfold Blockchain.resolve_conflicts at h
  cases hs : resolve_scan sha st.chain.length none responses with
  | none => rw [hs] at h; simp at h
  | some res =>
    rw [hs] at h
    have h' : (match res.2 with
        | some c => if c.isEmpty then (false, st) else (true, { st with chain := c })
        | none => (false, st)) = (replaced, st') := Option.some.inj h
    have hres_eta : resolve_scan sha st.chain.length none responses = some (res.1, res.2) := by
      rw [hs]
    cases hres : res.2 with
    | none =>
      rw [hres] at h'
      obtain ⟨h1, h2⟩ : false = replaced ∧ st = st' := by
        injection h' with ha hb; exact ⟨ha, hb⟩
      constructor
      · rw [← h1]
        simp only [Bool.false_eq_true, false_iff]
        intro hex
        obtain ⟨r, hmem, hq⟩ := hex
        obtain ⟨len, c, hmem', hlt, hv⟩ :
            ∃ len c, PeerResponse.ok len c ∈ responses ∧ st.chain.length < len ∧
              Blockchain.valid_chain sha c = some true := by
          cases r with
          | error => rw [qualifies] at hq; exact absurd hq (by simp)
          | ok len c =>
            rw [qualifies, Bool.and_eq_true] at hq
            obtain ⟨hq1, hq2⟩ := hq
            exact ⟨len, c, hmem, by simpa using hq1, by simpa using hq2⟩
        obtain ⟨c', hc', -⟩ := resolve_scan_complete sha responses st.chain.length none
          res hs ⟨len, c, hmem', hlt, hv⟩
        rw [hres] at hc'
        exact Option.noConfusion hc'
      · intro _
        exact h2.symm
    | some c =>
      rw [hres] at h'
      have hadopt := resolve_scan_adopt_origin sha responses st.chain.length res.1 c
        (by rw [hres] at hres_eta; exact hres_eta)
      obtain ⟨len, hmem, hlt, hv⟩ := hadopt
      have hcne : ¬ c.isEmpty = true := by
        rw [List.isEmpty_iff]
        exact valid_chain_ne_nil sha c true hv
      have h'' : (if c.isEmpty then (false, st) else (true, { st with chain := c })) =
          (replaced, st') := h'
      rw [if_neg hcne] at h''
      obtain ⟨h1, h2⟩ : true = replaced ∧ { st with chain := c } = st' := by
        injection h'' with ha hb; exact ⟨ha, hb⟩
      constructor
      · rw [← h1]
        simp only [true_iff]
        refine ⟨PeerResponse.ok len c, hmem, ?_⟩
        rw [qualifies, Bool.and_eq_true]
        exact ⟨by simpa using hlt, by simpa using hv⟩
      · intro hfalse
        rw [← h1] at hfalse
        exact absurd hfalse (by simp)

/-- Witness for C6 (amended) at a concrete replacing run: one peer reports
length 2 over a one-block local chain with a valid chain. -/
theorem C6_resolve_iff_witness :
    ((true = true) ↔ ∃ r ∈ [PeerResponse.ok 2 chainA],
        qualifies shaZero (Blockchain.init shaZero 0).chain.length r = true) ∧
    (true = false → { Blockchain.init shaZero 0 with chain := chainA } =
        Blockchain.init shaZero 0) :=
  C6_resolve_iff shaZero (Blockchain.init shaZero 0) [.ok 2 chainA] true
    { Blockchain.init shaZero 0 with chain := chainA } (by decide)
